import Mathlib

/-!
Shallow embedding of the gameboy cartridge dumper client (client.py).

Bytes are modelled as `Nat` values (each in `[0,256)` where relevant); byte
strings are `List Nat`.  Python slicing `b[i:j]` becomes `(l.drop i).take (j-i)`.
Python integer arithmetic with `% 256` is modelled over `Int`, whose `%`
(`Int.emod`) agrees with Python's `%` for a positive modulus.

The serial transport is modelled by functions: for `dump`, `rd i` is the byte
string returned by the `i`-th `ser.read(512)` call (clamped to 512 bytes, since
a read can never return more than requested); for `flash`, `wr k` is the number
of bytes the transport accepts on the `k`-th `ser.write` call (clamped to the
chunk's length, since a write can never accept more bytes than it was given).
`flash` produces the trace of transport operations it performed together with a
flag that is `false` when the `assert written == 32` statement failed (the
short-write abort).
-/

/-- Title extraction, from `CartridgeHeader.__extract_title`:
`title_end = 15`, overridden by the index of the first zero byte when one is
present; the bytes before the cut are then ASCII-decoded, which fails (Python
`UnicodeDecodeError`) when any of them is `≥ 0x80`.  The result is kept as the
list of (ASCII) byte values. -/
def extract_title (data : List Nat) : Option (List Nat) :=
  let title_end := if data.contains 0 then data.indexOf 0 else 15
  let t := data.take title_end
  if t.all (fun b => b < 128) then some t else none

/-- The parsed cartridge header, mirroring the fields set in
`CartridgeHeader.__init__` (`__data`, `nintendo_logo`, `title`, `cart_type`,
`rom_size`, `ram_size`, `hdr_cksm`). -/
structure CartridgeHeader where
  data : List Nat
  nintendo_logo : List Nat
  title : List Nat
  cart_type : Nat
  rom_size : Nat
  ram_size : Nat
  hdr_cksm : Nat
deriving DecidableEq

/-- Header construction, from `CartridgeHeader.__init__`.  The slices never
fail (Python slicing clamps), but `__extract_title` can raise on non-ASCII
bytes and each single-byte index access `hdrdata[0x47]`, `hdrdata[0x48]`,
`hdrdata[0x49]`, `hdrdata[0x4D]` raises `IndexError` when out of range; a
failing constructor is modelled as `none`. -/
def CartridgeHeader.init (hdrdata : List Nat) : Option CartridgeHeader := do
  let logo := (hdrdata.drop 0x4).take 0x30
  let t ← extract_title ((hdrdata.drop 0x34).take 0x10)
  let ct ← hdrdata[0x47]?
  let rom ← hdrdata[0x48]?
  let ram ← hdrdata[0x49]?
  let ck ← hdrdata[0x4D]?
  pure ⟨hdrdata, logo, t, ct, rom, ram, ck⟩

/-- Header validation, from `CartridgeHeader.valid`: fold
`x = (x - b - 1) % 256` (starting from `x = 0`) over `self.__data[0x34:0x4D]`
and compare with `self.hdr_cksm`. -/
def CartridgeHeader.valid (h : CartridgeHeader) : Bool :=
  ((h.data.drop 0x34).take 0x19).foldl (fun x b => (x - (b : Int) - 1) % 256) 0
    == (h.hdr_cksm : Int)

/-- Spec-side checksum: the value `x` obtained by starting at 0 and applying
`x = (x - b - 1) mod 256` to each byte `b` of the buffer at offsets
`[0x34,0x4D)`.  Written from the spec's words, to be compared with
`CartridgeHeader.valid`. -/
def specHeaderChecksum (hdrdata : List Nat) : Int :=
  ((hdrdata.drop 0x34).take 0x19).foldl (fun x b => (x - (b : Int) - 1) % 256) 0

/-- Spec-side validity: the computed rolling checksum equals the checksum byte
at offset `0x4D`. -/
def specHeaderValid (hdrdata : List Nat) : Bool :=
  specHeaderChecksum hdrdata == ((hdrdata.getD 0x4D 0 : Nat) : Int)

/-- ROM block count, from `main`: `num_blocks = 32 * (2 << header.rom_size)`. -/
def romDumpBlocks (rom_size : Nat) : Nat :=
  32 * (2 <<< rom_size)

/-- RAM size lookup, from `main`: `{2: 1, 3: 4, 4: 16, 5: 8}.get(header.ram_size, 0)`. -/
def ramLookup (ram_size : Nat) : Nat :=
  if ram_size = 2 then 1
  else if ram_size = 3 then 4
  else if ram_size = 4 then 16
  else if ram_size = 5 then 8
  else 0

/-- RAM dump block count, from `main`'s `--dumpram` path: the lookup value
multiplied by 16 (`num_blocks *= 16`). -/
def ramDumpBlocks (ram_size : Nat) : Nat :=
  ramLookup ram_size * 16

/-- RAM bank count for flashing, from `main`'s `--flashram` path: the lookup
value without the multiplier. -/
def ramFlashBanks (ram_size : Nat) : Nat :=
  ramLookup ram_size

/-- The accumulated dump buffer, from `dump`: `num_blocks` iterations, each
appending whatever `ser.read(512)` returned (at most 512 bytes) to the buffer,
with no length check. -/
def dump (rd : Nat → List Nat) (num_blocks : Nat) : List Nat :=
  ((List.range num_blocks).map fun i => (rd i).take 512).flatten

/-- A transport operation performed by `flash`: a chunk write (with the bytes
passed to `ser.write`) or a synchronizing `ser.read()`. -/
inductive Op where
  | write : List Nat → Op
  | read : Op
deriving DecidableEq

/-- The inner chunk loop of `flash` over a list of chunks: the `k`-th overall
write call accepts `min (wr k) chunk.length` bytes; `assert written == 32`
aborts the run when that is not 32 (no synchronizing read happens then), else a
synchronizing `ser.read()` follows and the loop continues.  Returns the trace
of operations, the next write-call index, and `true` when no assert failed. -/
def writeChunks (wr : Nat → Nat) : Nat → List (List Nat) → List Op × Nat × Bool
  | k, [] => ([], k, true)
  | k, chunk :: rest =>
    let written := min (wr k) chunk.length
    if written = 32 then
      let r := writeChunks wr (k + 1) rest
      (Op.write chunk :: Op.read :: r.1, r.2.1, r.2.2)
    else
      ([Op.write chunk], k + 1, false)

/-- The 256 chunk slices `bank[j*32:(j+1)*32]` of a bank, from `flash`'s inner
`for j in range(256)` loop. -/
def bankChunks (bank : List Nat) : List (List Nat) :=
  (List.range 256).map fun j => (bank.drop (j * 32)).take 32

/-- The outer bank loop of `flash` over a list of bank indices: slice
`data[i*0x2000:(i+1)*0x2000]`, run the chunk loop, and on success perform the
per-bank synchronizing `ser.read()` before the next bank; an assert failure
aborts the whole run. -/
def flashGo (wr : Nat → Nat) (data : List Nat) : Nat → List Nat → List Op × Nat × Bool
  | k, [] => ([], k, true)
  | k, i :: rest =>
    let bank := (data.drop (i * 0x2000)).take 0x2000
    let r := writeChunks wr k (bankChunks bank)
    if r.2.2 then
      let r2 := flashGo wr data r.2.1 rest
      (r.1 ++ Op.read :: r2.1, r2.2.1, r2.2.2)
    else
      (r.1, r.2.1, false)

/-- Flash, from `flash(ser, data, num_banks)`: run the bank loop over
`range(num_banks)`.  Returns the transport trace and `true` iff no
`assert written == 32` failed. -/
def flash (wr : Nat → Nat) (data : List Nat) (num_banks : Nat) : List Op × Bool :=
  let r := flashGo wr data 0 (List.range num_banks)
  (r.1, r.2.2)

/-- Number of chunk writes in a transport trace. -/
def numWrites (tr : List Op) : Nat :=
  tr.countP fun op => match op with | Op.write _ => true | Op.read => false

/-! ### Helper lemmas -/

theorem take_indexOf_zero_not_mem : ∀ (l : List Nat), (0 : Nat) ∉ l.take (l.indexOf 0)
  | [] => by simp
  | a :: tl => by
    by_cases ha : a = 0
    · subst ha
      simp [List.indexOf_cons_self]
    · rw [List.indexOf_cons_ne tl (by simpa using ha), List.take_succ_cons]
      intro hmem
      rcases List.mem_cons.mp hmem with h0 | h0
      · exact ha h0.symm
      · exact take_indexOf_zero_not_mem tl h0

/-! ### Claim theorems -/

/-- C7: for every romSizeCode, the ROM block count equals `32 * (2 << romSizeCode)`
(equivalently `64 * 2 ^ romSizeCode`); in particular romSizeCode 0 yields 64
blocks and romSizeCode 1 yields 128 blocks. -/
theorem rom_block_count :
    romDumpBlocks 0 = 64 ∧ romDumpBlocks 1 = 128 ∧
      ∀ c, romDumpBlocks c = 64 * 2 ^ c := by
  refine ⟨rfl, rfl, fun c => ?_⟩
  simp only [romDumpBlocks, Nat.shiftLeft_eq]
  ring

/-- C6: ramSizeCodes 2, 3, 4, 5 yield dump block counts 16, 64, 256, 128 (the
lookup values 1, 4, 16, 8 multiplied by 16) and flash bank counts 1, 4, 16, 8
(the lookup values without the multiplier); every other code yields 0 transfer
units on both paths. -/
theorem ram_size_resolution :
    ramDumpBlocks 2 = 16 ∧ ramDumpBlocks 3 = 64 ∧ ramDumpBlocks 4 = 256 ∧
      ramDumpBlocks 5 = 128 ∧
    ramFlashBanks 2 = 1 ∧ ramFlashBanks 3 = 4 ∧ ramFlashBanks 4 = 16 ∧
      ramFlashBanks 5 = 8 ∧
    (∀ c, ramDumpBlocks c = ramFlashBanks c * 16) ∧
    (∀ c, c ≠ 2 → c ≠ 3 → c ≠ 4 → c ≠ 5 →
      ramDumpBlocks c = 0 ∧ ramFlashBanks c = 0) := by
  refine ⟨rfl, rfl, rfl, rfl, rfl, rfl, rfl, rfl, fun c => rfl,
    fun c h2 h3 h4 h5 => ?_⟩
  simp [ramDumpBlocks, ramFlashBanks, ramLookup, h2, h3, h4, h5]

/-- C6 witness: an out-of-table code (9) yields 0 blocks and 0 banks. -/
theorem ram_size_resolution_witness :
    ramDumpBlocks 9 = 0 ∧ ramFlashBanks 9 = 0 :=
  ram_size_resolution.2.2.2.2.2.2.2.2.2 9 (by decide) (by decide) (by decide)
    (by decide)

/-- C9 counterexample: a 16-byte title field with no zero byte yields a
15-character title, not all 16 bytes as the claim states. -/
theorem title_no_terminator_cex :
    (List.replicate 16 65).contains 0 = false ∧
    extract_title (List.replicate 16 65) = some (List.replicate 15 65) ∧
    (List.replicate 15 65).length = 15 := by decide

/-- C9 amended: for a 16-byte title field with no zero byte (and only ASCII
bytes, so that decoding succeeds), title extraction takes only the first 15
bytes of the field as the title. -/
theorem title_no_terminator_takes_15 (field : List Nat)
    (hlen : field.length = 16) (hz : field.contains 0 = false)
    (hascii : field.all (fun b => b < 128) = true) :
    extract_title field = some (field.take 15) := by
  have hz' : (0 : Nat) ∉ field := by simpa using hz
  have hmem : ∀ x ∈ field.take 15, x < 128 := by
    rw [List.all_eq_true] at hascii
    intro x hx
    simpa using hascii x ((List.take_sublist 15 field).mem hx)
  simp [extract_title, hz']
  exact hmem

/-- C9 amended witness: a field of 16 copies of byte 65 yields its first 15
bytes. -/
theorem title_no_terminator_takes_15_witness :
    extract_title (List.replicate 16 65) = some ((List.replicate 16 65).take 15) :=
  title_no_terminator_takes_15 _ (by decide) (by decide) (by decide)

/-- C10 counterexample: a 78-byte buffer (shorter than 80) still constructs a
CartridgeHeader successfully, because the highest offset the constructor
accesses is 0x4D. -/
theorem header_init_short_cex :
    (CartridgeHeader.init (List.replicate 78 0)).isSome = true ∧ (78 : Nat) < 80 := by
  decide

/-- C10 amended: header construction succeeds exactly on buffers of at least
78 (0x4E) bytes whose title bytes decode as ASCII; in particular every buffer
shorter than 78 bytes fails, but 78- and 79-byte buffers can succeed. -/
theorem header_init_isSome_iff (hdrdata : List Nat) :
    (CartridgeHeader.init hdrdata).isSome = true ↔
      (0x4E ≤ hdrdata.length ∧
        (extract_title ((hdrdata.drop 0x34).take 0x10)).isSome = true) := by
  constructor
  · intro h
    obtain ⟨hd, hh⟩ := Option.isSome_iff_exists.mp h
    simp only [CartridgeHeader.init, bind, Option.bind_eq_some, Option.pure_def,
      Option.some.injEq] at hh
    obtain ⟨t, ht, ct, hct, rom, hrom, ram, hram, ck, hck, _⟩ := hh
    have hlt : (0x4D : Nat) < hdrdata.length := by
      by_contra hq
      push_neg at hq
      rw [List.getElem?_eq_none hq] at hck
      exact Option.noConfusion hck
    exact ⟨by omega, by rw [ht]; rfl⟩
  · rintro ⟨hlen, hts⟩
    obtain ⟨t, ht⟩ := Option.isSome_iff_exists.mp hts
    simp [CartridgeHeader.init, ht,
      List.getElem?_eq_getElem (show (0x47 : Nat) < hdrdata.length by omega),
      List.getElem?_eq_getElem (show (0x48 : Nat) < hdrdata.length by omega),
      List.getElem?_eq_getElem (show (0x49 : Nat) < hdrdata.length by omega),
      List.getElem?_eq_getElem (show (0x4D : Nat) < hdrdata.length by omega)]

/-- C8: for an 80-byte header buffer, a successfully extracted title has at
most 15 characters; with no zero byte in the title field it has exactly 15
characters, and with the first zero byte at relative offset k it has exactly k
characters; the terminator byte is never part of the title. -/
theorem title_extraction_lengths (hdrdata t : List Nat)
    (hlen : hdrdata.length = 80)
    (ht : extract_title ((hdrdata.drop 0x34).take 0x10) = some t) :
    t.length ≤ 15 ∧
    (((hdrdata.drop 0x34).take 0x10).contains 0 = false → t.length = 15) ∧
    (∀ k, ((hdrdata.drop 0x34).take 0x10).contains 0 = true →
      ((hdrdata.drop 0x34).take 0x10).indexOf 0 = k → t.length = k) ∧
    t.contains 0 = false := by
  set field := (hdrdata.drop 0x34).take 0x10 with hfield
  have hflen : field.length = 16 := by
    rw [hfield]
    simp [hlen]
  simp only [extract_title] at ht
  by_cases hz : field.contains 0 = true
  · have hmem : (0 : Nat) ∈ field := by simpa using hz
    have hidx : field.indexOf 0 < 16 := by
      rw [← hflen]
      exact List.indexOf_lt_length.mpr hmem
    rw [if_pos hz] at ht
    split at ht
    · obtain rfl : field.take (field.indexOf 0) = t := by
        exact Option.some.inj ht
      have hlt : (field.take (field.indexOf 0)).length = field.indexOf 0 := by
        rw [List.length_take]
        omega
      refine ⟨by omega, fun hcf => by rw [hcf] at hz; exact Bool.noConfusion hz, ?_, ?_⟩
      · intro k _ hk
        rw [hlt, hk]
      · simpa using take_indexOf_zero_not_mem field
    · exact Option.noConfusion ht
  · have hz' : field.contains 0 = false := by
      cases hcf : field.contains 0
      · rfl
      · exact absurd hcf hz
    rw [if_neg hz] at ht
    split at ht
    · obtain rfl : field.take 15 = t := Option.some.inj ht
      have hlt : (field.take 15).length = 15 := by
        rw [List.length_take]
        omega
      have hnm : (0 : Nat) ∉ field := by simpa using hz'
      refine ⟨by omega, fun _ => hlt, fun k hcf _ => absurd hcf hz, ?_⟩
      simp only [List.contains_eq_any_beq]
      rw [List.any_eq_false]
      intro x hx
      have : x ∈ field := (List.take_sublist 15 field).mem hx
      simp only [beq_iff_eq]
      intro hx0
      exact hnm (hx0 ▸ this)
    · exact Option.noConfusion ht

/-- C8 witness: the all-zero 80-byte header has a zero byte at relative offset
0 of its title field and its title is empty. -/
theorem title_extraction_lengths_witness :
    ([] : List Nat).length ≤ 15 ∧
    ((((List.replicate 80 0 : List Nat).drop 0x34).take 0x10).contains 0 = false →
      ([] : List Nat).length = 15) ∧
    (∀ k, (((List.replicate 80 0 : List Nat).drop 0x34).take 0x10).contains 0 = true →
      (((List.replicate 80 0 : List Nat).drop 0x34).take 0x10).indexOf 0 = k →
      ([] : List Nat).length = k) ∧
    ([] : List Nat).contains 0 = false :=
  title_extraction_lengths (List.replicate 80 0) [] (by decide) (by decide)

/-- C1: for every 80-byte header buffer that parses, `valid()` returns true if
and only if the rolling checksum `x = (x - b - 1) mod 256` over the bytes at
offsets [0x34,0x4D), starting from 0, equals the checksum byte at offset 0x4D. -/
theorem valid_iff_spec_checksum (hdrdata : List Nat) (h : CartridgeHeader)
    (hlen : hdrdata.length = 80)
    (hinit : CartridgeHeader.init hdrdata = some h) :
    (h.valid = true ↔ specHeaderValid hdrdata = true) := by
  simp only [CartridgeHeader.init, bind, Option.bind_eq_some, Option.pure_def,
    Option.some.injEq] at hinit
  obtain ⟨t, ht, ct, hct, rom, hrom, ram, hram, ck, hck, hh⟩ := hinit
  subst hh
  have hck' : hdrdata.getD 0x4D 0 = ck := by
    rw [List.getD_eq_getElem?_getD, hck]
    rfl
  simp only [CartridgeHeader.valid, specHeaderValid, specHeaderChecksum, hck']

/-- C1 witness: the all-zero 80-byte header (whose computed checksum is 231,
not 0, so both sides are false). -/
theorem valid_iff_spec_checksum_witness :
    ((⟨List.replicate 80 0, List.replicate 0x30 0, [], 0, 0, 0, 0⟩ :
      CartridgeHeader).valid = true ↔ specHeaderValid (List.replicate 80 0) = true) :=
  valid_iff_spec_checksum (List.replicate 80 0) _ (by decide) (by decide)

/-- Helper: a flatten of blocks each at most 512 bytes long has length at most
`512 * number of blocks`. -/
theorem flatten_length_le_512 (l : List (List Nat))
    (hall : ∀ b ∈ l, b.length ≤ 512) :
    l.flatten.length ≤ 512 * l.length := by
  induction l with
  | nil => simp
  | cons b rest ih =>
    simp only [List.flatten_cons, List.length_append, List.length_cons]
    have hrest := ih (fun x hx => hall x (List.mem_cons_of_mem _ hx))
    have hb := hall b (List.mem_cons_self _ _)
    omega

/-- Helper: if additionally some block is strictly shorter than 512 bytes, the
flatten is strictly shorter than `512 * number of blocks`. -/
theorem flatten_length_lt_512 (l : List (List Nat))
    (hall : ∀ b ∈ l, b.length ≤ 512) (hex : ∃ b ∈ l, b.length < 512) :
    l.flatten.length < 512 * l.length := by
  induction l with
  | nil =>
    obtain ⟨b, hb, _⟩ := hex
    exact absurd hb (List.not_mem_nil b)
  | cons b rest ih =>
    simp only [List.flatten_cons, List.length_append, List.length_cons]
    have hb := hall b (List.mem_cons_self _ _)
    obtain ⟨c, hc, hclt⟩ := hex
    rcases List.mem_cons.mp hc with rfl | hctl
    · have hrest := flatten_length_le_512 rest
        (fun x hx => hall x (List.mem_cons_of_mem _ hx))
      omega
    · have hrest := ih (fun x hx => hall x (List.mem_cons_of_mem _ hx))
        ⟨c, hctl, hclt⟩
      omega

/-- C2 counterexample: a transport yielding 3-byte blocks makes `dump`
silently append the short blocks to the output buffer; no error is raised (the
dump loop is a total function of the transport's responses) and the output is
short. -/
theorem dump_short_read_cex :
    (((fun _ => [1, 2, 3]) : Nat → List Nat) 0).length < 512 ∧
    dump (fun _ => [1, 2, 3]) 2 = [1, 2, 3, 1, 2, 3] ∧
    (dump (fun _ => [1, 2, 3]) 2).length ≠ 2 * 512 := by decide

/-- C2 amended: `dump` performs exactly blockCount reads and appends whatever
each read returns with no length check and no error; when the transport yields
fewer than 512 bytes for some block, the short block is silently incorporated
and the output buffer ends up strictly shorter than blockCount * 512 bytes. -/
theorem dump_short_block_truncates (rd : Nat → List Nat) (n : Nat)
    (hex : ∃ i, i < n ∧ ((rd i).take 512).length < 512) :
    (dump rd n).length < 512 * n := by
  obtain ⟨i, hin, hilt⟩ := hex
  have hmain := flatten_length_lt_512 ((List.range n).map fun i => (rd i).take 512)
    (by
      intro b hb
      obtain ⟨j, _, rfl⟩ := List.mem_map.mp hb
      simp [List.length_take])
    ⟨(rd i).take 512, List.mem_map.mpr ⟨i, List.mem_range.mpr hin, rfl⟩, hilt⟩
  simpa [dump] using hmain

/-- C2 amended witness: two 3-byte reads give a 6-byte dump, strictly shorter
than 1024 bytes. -/
theorem dump_short_block_truncates_witness :
    (dump (fun _ => [1, 2, 3]) 2).length < 512 * 2 :=
  dump_short_block_truncates (fun _ => [1, 2, 3]) 2 ⟨0, by decide, by decide⟩

/-! ### Flash machinery lemmas -/

/-- Helper: when every chunk is 32 bytes long and the transport accepts at
least 32 bytes on each call, the chunk loop succeeds and its trace strictly
alternates a chunk write with one synchronizing read. -/
theorem writeChunks_success (wr : Nat → Nat) :
    ∀ (cs : List (List Nat)) (k : Nat),
      (∀ c ∈ cs, c.length = 32) →
      (∀ j, j < cs.length → 32 ≤ wr (k + j)) →
      writeChunks wr k cs =
        ((cs.map fun c => [Op.write c, Op.read]).flatten, k + cs.length, true)
  | [], k, _, _ => by simp [writeChunks]
  | c :: rest, k, hc, hwr => by
    have hcl : c.length = 32 := hc c (List.mem_cons_self _ _)
    have hk : 32 ≤ wr k := by simpa using hwr 0 (by simp)
    have hmin : min (wr k) c.length = 32 := by
      rw [hcl]
      omega
    have ih := writeChunks_success wr rest (k + 1)
      (fun x hx => hc x (List.mem_cons_of_mem _ hx))
      (fun j hj => by
        have h1 := hwr (j + 1) (by simp only [List.length_cons]; omega)
        have h2 : k + (j + 1) = k + 1 + j := by omega
        rw [h2] at h1
        exact h1)
    simp only [writeChunks, hmin, if_pos, ih, List.map_cons, List.flatten_cons,
      List.length_cons, Prod.mk.injEq]
    refine ⟨rfl, by omega, trivial⟩


/-- Helper: when the first j₀ write calls are accepted in full and call j₀ is
accepted short, the chunk loop stops right after the failing write: its trace
is j₀ write/read pairs followed by the failing write, with no read after it. -/
theorem writeChunks_fail (wr : Nat → Nat) :
    ∀ (cs : List (List Nat)) (k j₀ : Nat) (hj : j₀ < cs.length),
      (∀ c ∈ cs, c.length = 32) →
      (∀ j, j < j₀ → 32 ≤ wr (k + j)) →
      wr (k + j₀) < 32 →
      writeChunks wr k cs =
        (((cs.take j₀).map fun c => [Op.write c, Op.read]).flatten ++
          [Op.write (cs.get ⟨j₀, hj⟩)], k + j₀ + 1, false)
  | [], _, j₀, hj, _, _, _ => absurd hj (by simp)
  | c :: rest, k, 0, hj, hc, _, hbad => by
    have hcl : c.length = 32 := hc c (List.mem_cons_self _ _)
    have hbad' : wr k < 32 := by simpa using hbad
    have hmin : min (wr k) c.length ≠ 32 := by
      rw [hcl]
      omega
    simp only [writeChunks, if_neg hmin]
    simp
  | c :: rest, k, j + 1, hj, hc, hok, hbad => by
    have hcl : c.length = 32 := hc c (List.mem_cons_self _ _)
    have hk : 32 ≤ wr k := by simpa using hok 0 (by omega)
    have hmin : min (wr k) c.length = 32 := by
      rw [hcl]
      omega
    have ih := writeChunks_fail wr rest (k + 1) j (by simpa using Nat.lt_of_succ_lt_succ hj)
      (fun x hx => hc x (List.mem_cons_of_mem _ hx))
      (fun i hi => by
        have h1 := hok (i + 1) (by omega)
        have h2 : k + (i + 1) = k + 1 + i := by omega
        rw [h2] at h1
        exact h1)
      (by
        have h2 : k + (j + 1) = k + 1 + j := by omega
        rw [h2] at hbad
        exact hbad)
    simp only [writeChunks, hmin, if_pos, ih, List.take_succ_cons, List.map_cons,
      List.flatten_cons, Prod.mk.injEq, List.get_cons_succ]
    refine ⟨by simp, by omega, trivial⟩


/-- Helper: a chunk list containing a chunk shorter than 32 bytes always makes
the chunk loop fail, whatever the transport does. -/
theorem writeChunks_false_of_short (wr : Nat → Nat) :
    ∀ (cs : List (List Nat)) (k : Nat),
      (∃ c ∈ cs, c.length < 32) →
      (writeChunks wr k cs).2.2 = false
  | [], _, hex => absurd hex (by simp)
  | c :: rest, k, hex => by
    by_cases hmin : min (wr k) c.length = 32
    · have hcl : 32 ≤ c.length := by omega
      obtain ⟨x, hx, hxl⟩ := hex
      rcases List.mem_cons.mp hx with rfl | hxtl
      · omega
      · have ih := writeChunks_false_of_short wr rest (k + 1) ⟨x, hxtl, hxl⟩
        simp only [writeChunks, hmin, if_pos]
        simpa using ih
    · simp only [writeChunks, if_neg hmin]


/-- Helper: every operation in a chunk-loop trace is a read or a write of one
of the chunks. -/
theorem writeChunks_writes_mem (wr : Nat → Nat) :
    ∀ (cs : List (List Nat)) (k : Nat) (op : Op),
      op ∈ (writeChunks wr k cs).1 →
      op = Op.read ∨ ∃ c ∈ cs, op = Op.write c
  | [], _, op, hop => absurd hop (by simp [writeChunks])
  | c :: rest, k, op, hop => by
    by_cases hmin : min (wr k) c.length = 32
    · simp only [writeChunks, hmin, if_pos] at hop
      rcases List.mem_cons.mp hop with rfl | hop'
      · exact Or.inr ⟨c, List.mem_cons_self _ _, rfl⟩
      rcases List.mem_cons.mp hop' with rfl | hop''
      · exact Or.inl rfl
      · rcases writeChunks_writes_mem wr rest (k + 1) op hop'' with h | ⟨x, hx, hxe⟩
        · exact Or.inl h
        · exact Or.inr ⟨x, List.mem_cons_of_mem _ hx, hxe⟩
    · simp only [writeChunks, if_neg hmin] at hop
      rcases List.mem_cons.mp hop with rfl | hop'
      · exact Or.inr ⟨c, List.mem_cons_self _ _, rfl⟩
      · exact absurd hop' (by simp)


/-- Helper: a bank is always split into exactly 256 chunk slices. -/
theorem bankChunks_length (bank : List Nat) : (bankChunks bank).length = 256 := by
  simp [bankChunks]


/-- Helper: all 256 chunk slices of a full 0x2000-byte bank are 32 bytes. -/
theorem bankChunks_all_32 (bank : List Nat) (h : bank.length = 0x2000) :
    ∀ c ∈ bankChunks bank, c.length = 32 := by
  intro c hc
  obtain ⟨j, hj, rfl⟩ := List.mem_map.mp hc
  have hj' : j < 256 := List.mem_range.mp hj
  simp only [List.length_take, List.length_drop, h]
  omega


/-- Helper: a bank shorter than 0x2000 bytes has a chunk slice shorter than
32 bytes (in particular its 256th slice). -/
theorem bankChunks_last_short (bank : List Nat) (h : bank.length < 0x2000) :
    ∃ c ∈ bankChunks bank, c.length < 32 := by
  refine ⟨(bank.drop (255 * 32)).take 32,
    List.mem_map.mpr ⟨255, List.mem_range.mpr (by omega), rfl⟩, ?_⟩
  simp only [List.length_take, List.length_drop]
  omega


/-- Helper: write counting distributes over trace concatenation. -/
theorem numWrites_append (a b : List Op) :
    numWrites (a ++ b) = numWrites a + numWrites b := by
  simp [numWrites, List.countP_append]


/-- Helper: a leading read contributes no writes. -/
theorem numWrites_read_cons (l : List Op) : numWrites (Op.read :: l) = numWrites l := by
  simp [numWrites, List.countP_cons]


/-- Helper: a trace of write/read pairs contains one write per chunk. -/
theorem numWrites_pairs (cs : List (List Nat)) :
    numWrites ((cs.map fun c => [Op.write c, Op.read]).flatten) = cs.length := by
  induction cs with
  | nil => simp [numWrites]
  | cons c rest ih =>
    simp only [List.map_cons, List.flatten_cons]
    rw [numWrites_append, ih]
    simp [numWrites, List.countP_cons]
    omega


/-- Helper: with full banks and a transport accepting every write in full, the
bank loop produces, per bank, 256 write/read pairs followed by one extra
synchronizing read, and succeeds. -/
theorem flashGo_success (wr : Nat → Nat) (data : List Nat) :
    ∀ (is : List Nat) (k : Nat),
      (∀ i ∈ is, ((data.drop (i * 0x2000)).take 0x2000).length = 0x2000) →
      (∀ j, j < 256 * is.length → 32 ≤ wr (k + j)) →
      flashGo wr data k is =
        ((is.map fun i =>
          ((bankChunks ((data.drop (i * 0x2000)).take 0x2000)).map
            fun c => [Op.write c, Op.read]).flatten ++ [Op.read]).flatten,
         k + 256 * is.length, true)
  | [], k, _, _ => by simp [flashGo]
  | i :: rest, k, hbank, hwr => by
    have hb := hbank i (List.mem_cons_self _ _)
    have hwc := writeChunks_success wr (bankChunks ((data.drop (i * 0x2000)).take 0x2000)) k
      (bankChunks_all_32 _ hb)
      (fun j hj => hwr j (by rw [bankChunks_length] at hj; simp only [List.length_cons]; omega))
    have ih := flashGo_success wr data rest (k + 256)
      (fun x hx => hbank x (List.mem_cons_of_mem _ hx))
      (fun j hj => by
        have h1 := hwr (256 + j) (by simp only [List.length_cons]; omega)
        have h2 : k + (256 + j) = k + 256 + j := by omega
        rw [h2] at h1
        exact h1)
    rw [bankChunks_length] at hwc
    simp only [flashGo, hwc, ih, List.map_cons, List.flatten_cons, if_true,
      List.length_cons, Prod.mk.injEq]
    refine ⟨by simp [List.append_assoc], by omega, trivial⟩


/-- Helper: with full banks, if the first short-accepted write call is k₀,
the bank loop fails and its trace contains exactly the writes up to and
including the failing one. -/
theorem flashGo_fail (wr : Nat → Nat) (data : List Nat) :
    ∀ (is : List Nat) (k k₀ : Nat),
      (∀ i ∈ is, ((data.drop (i * 0x2000)).take 0x2000).length = 0x2000) →
      k ≤ k₀ → k₀ < k + 256 * is.length →
      (∀ j, k ≤ j → j < k₀ → 32 ≤ wr j) →
      wr k₀ < 32 →
      (flashGo wr data k is).2.2 = false ∧
        numWrites (flashGo wr data k is).1 = k₀ + 1 - k
  | [], k, k₀, _, hlo, hhi, _, _ => by
    simp only [List.length_nil, Nat.mul_zero] at hhi
    omega
  | i :: rest, k, k₀, hbank, hlo, hhi, hok, hbad => by
    have hb := hbank i (List.mem_cons_self _ _)
    by_cases hcase : k₀ < k + 256
    · have hj : k₀ - k < (bankChunks ((data.drop (i * 0x2000)).take 0x2000)).length := by
        rw [bankChunks_length]
        omega
      have hwc := writeChunks_fail wr (bankChunks ((data.drop (i * 0x2000)).take 0x2000))
        k (k₀ - k) hj (bankChunks_all_32 _ hb)
        (fun j hjlt => hok (k + j) (by omega) (by omega))
        (by
          have he : k + (k₀ - k) = k₀ := by omega
          rw [he]
          exact hbad)
      simp only [flashGo, hwc, Bool.false_eq_true, if_false]
      refine ⟨trivial, ?_⟩
      rw [numWrites_append, numWrites_pairs]
      have hlt : (List.take (k₀ - k)
          (bankChunks ((data.drop (i * 0x2000)).take 0x2000))).length = k₀ - k := by
        rw [List.length_take, bankChunks_length]
        omega
      rw [hlt]
      simp [numWrites, List.countP_cons]
      omega
    · push_neg at hcase
      have hwc := writeChunks_success wr (bankChunks ((data.drop (i * 0x2000)).take 0x2000))
        k (bankChunks_all_32 _ hb)
        (fun j hjl => hok (k + j) (by omega)
          (by rw [bankChunks_length] at hjl; omega))
      have ih := flashGo_fail wr data rest (k + 256) k₀
        (fun x hx => hbank x (List.mem_cons_of_mem _ hx))
        (by omega)
        (by simp only [List.length_cons] at hhi; omega)
        (fun j hj1 hj2 => hok j (by omega) hj2)
        hbad
      rw [bankChunks_length] at hwc
      simp only [flashGo, hwc, if_true]
      refine ⟨ih.1, ?_⟩
      rw [numWrites_append, numWrites_pairs, numWrites_read_cons, ih.2, bankChunks_length]
      omega


/-- Helper: if any processed bank has a chunk slice shorter than 32 bytes, the
bank loop fails, whatever the transport does. -/
theorem flashGo_false_of_short (wr : Nat → Nat) (data : List Nat) :
    ∀ (is : List Nat) (k : Nat),
      (∃ i ∈ is, ∃ c ∈ bankChunks ((data.drop (i * 0x2000)).take 0x2000), c.length < 32) →
      (flashGo wr data k is).2.2 = false
  | [], _, hex => absurd hex (by simp)
  | i :: rest, k, hex => by
    cases hb : (writeChunks wr k (bankChunks ((data.drop (i * 0x2000)).take 0x2000))).2.2 with
    | false => simp [flashGo, hb]
    | true =>
      obtain ⟨x, hx, c, hc, hcl⟩ := hex
      rcases List.mem_cons.mp hx with rfl | hxtl
      · have hfa := writeChunks_false_of_short wr
          (bankChunks ((data.drop (x * 0x2000)).take 0x2000)) k ⟨c, hc, hcl⟩
        rw [hfa] at hb
        exact Bool.noConfusion hb
      · have ih := flashGo_false_of_short wr data rest
          ((writeChunks wr k (bankChunks ((data.drop (i * 0x2000)).take 0x2000))).2.1)
          ⟨x, hxtl, c, hc, hcl⟩
        simp [flashGo, hb, ih]


/-- Helper: every operation in a bank-loop trace is a read or a write of a
chunk slice of one of the banks. -/
theorem flashGo_writes_mem (wr : Nat → Nat) (data : List Nat) :
    ∀ (is : List Nat) (k : Nat) (op : Op),
      op ∈ (flashGo wr data k is).1 →
      op = Op.read ∨
        ∃ i ∈ is, ∃ c ∈ bankChunks ((data.drop (i * 0x2000)).take 0x2000), op = Op.write c
  | [], _, op, hop => absurd hop (by simp [flashGo])
  | i :: rest, k, op, hop => by
    cases hb : (writeChunks wr k (bankChunks ((data.drop (i * 0x2000)).take 0x2000))).2.2 with
    | false =>
      simp only [flashGo, hb, Bool.false_eq_true, if_false] at hop
      rcases writeChunks_writes_mem wr _ k op hop with h | ⟨c, hc, he⟩
      · exact Or.inl h
      · exact Or.inr ⟨i, List.mem_cons_self _ _, c, hc, he⟩
    | true =>
      simp only [flashGo, hb, if_true] at hop
      rcases List.mem_append.mp hop with h1 | h2
      · rcases writeChunks_writes_mem wr _ k op h1 with h | ⟨c, hc, he⟩
        · exact Or.inl h
        · exact Or.inr ⟨i, List.mem_cons_self _ _, c, hc, he⟩
      · rcases List.mem_cons.mp h2 with rfl | h3
        · exact Or.inl rfl
        · rcases flashGo_writes_mem wr data rest _ op h3 with h | ⟨x, hx, c, hc, he⟩
          · exact Or.inl h
          · exact Or.inr ⟨x, List.mem_cons_of_mem _ hx, c, hc, he⟩


/-- Helper: every chunk slice of a bank of `data` is itself a 32-byte-bounded
slice of `data` — chunks are sliced, never padded. -/
theorem bankChunks_slice (data : List Nat) (i : Nat) (c : List Nat)
    (hc : c ∈ bankChunks ((data.drop (i * 0x2000)).take 0x2000)) :
    ∃ off, c = (data.drop off).take 32 := by
  obtain ⟨j, hj, rfl⟩ := List.mem_map.mp hc
  have hj' : j < 256 := List.mem_range.mp hj
  refine ⟨i * 0x2000 + j * 32, ?_⟩
  rw [List.drop_take, List.drop_drop, List.take_take]
  have hm : min 32 (0x2000 - j * 32) = 32 := by omega
  rw [hm]


/-- C3: on a run where every bank is fully flashed (data covers all banks and
the transport accepts every 32-byte write), the transport trace of `flash` is,
bank by bank, the 256 chunk writes each immediately followed by exactly one
synchronizing read, with one additional synchronizing read after the 256th
chunk of a bank and before any write of the next bank. -/
theorem flash_sync_trace (wr : Nat → Nat) (data : List Nat) (n : Nat)
    (hlen : n * 0x2000 ≤ data.length) (hwr : ∀ k, k < 256 * n → 32 ≤ wr k) :
    flash wr data n =
      (((List.range n).map fun i =>
        ((bankChunks ((data.drop (i * 0x2000)).take 0x2000)).map
          fun c => [Op.write c, Op.read]).flatten ++ [Op.read]).flatten, true) := by
  have hbank : ∀ i ∈ List.range n,
      ((data.drop (i * 0x2000)).take 0x2000).length = 0x2000 := by
    intro i hi
    have hi' : i < n := List.mem_range.mp hi
    simp only [List.length_take, List.length_drop]
    omega
  have hgo := flashGo_success wr data (List.range n) 0 hbank
    (fun j hj => by
      have h1 := hwr j (by rwa [List.length_range] at hj)
      simpa using h1)
  simp only [flash, hgo]


/-- C4: if, during a flash of fully covered banks, the transport accepts fewer
than 32 bytes for the k₀-th chunk write (all earlier writes being accepted in
full), then flash fails with the short-write assert error and the failing
write is the last one issued: exactly k₀ + 1 writes appear in the trace. -/
theorem flash_short_write_aborts (wr : Nat → Nat) (data : List Nat) (n k₀ : Nat)
    (hlen : n * 0x2000 ≤ data.length) (hk : k₀ < 256 * n)
    (hok : ∀ j, j < k₀ → 32 ≤ wr j) (hbad : wr k₀ < 32) :
    (flash wr data n).2 = false ∧ numWrites (flash wr data n).1 = k₀ + 1 := by
  have hbank : ∀ i ∈ List.range n,
      ((data.drop (i * 0x2000)).take 0x2000).length = 0x2000 := by
    intro i hi
    have hi' : i < n := List.mem_range.mp hi
    simp only [List.length_take, List.length_drop]
    omega
  have hgo := flashGo_fail wr data (List.range n) 0 k₀ hbank (Nat.zero_le _)
    (by rw [List.length_range]; omega)
    (fun j _ hj => hok j hj) hbad
  refine ⟨by simpa [flash] using hgo.1, ?_⟩
  have h2 := hgo.2
  simp only [flash]
  omega


/-- C5 counterexample: a 16-byte payload (not a multiple of 0x2000) flashed as
one bank makes `flash` fail with the short-write assert error even though the
transport accepts everything offered: the short final bank is an error, not a
handled case. -/
theorem flash_short_data_cex :
    (List.replicate 16 7).length % 0x2000 ≠ 0 ∧
    (flash (fun _ => 32) (List.replicate 16 7) 1).2 = false := by decide


/-- C5 amended: `flash` does slice the final bank from whatever bytes remain
(every transmitted chunk is a plain slice of the data, never padded), but when
the data does not cover bankCount full banks the `assert written == 32` check
fails at the first chunk shorter than 32 bytes, so the run always aborts with
an error instead of handling the shorter final bank. -/
theorem flash_short_data_aborts (wr : Nat → Nat) (data : List Nat) (n : Nat)
    (hn : 0 < n) (hlen : data.length < n * 0x2000) :
    (flash wr data n).2 = false ∧
    ∀ c, Op.write c ∈ (flash wr data n).1 → ∃ off, c = (data.drop off).take 32 := by
  constructor
  · have hshort : ∃ i ∈ List.range n,
        ∃ c ∈ bankChunks ((data.drop (i * 0x2000)).take 0x2000), c.length < 32 := by
      refine ⟨n - 1, List.mem_range.mpr (by omega), ?_⟩
      apply bankChunks_last_short
      simp only [List.length_take, List.length_drop]
      omega
    have hgo := flashGo_false_of_short wr data (List.range n) 0 hshort
    simpa [flash] using hgo
  · intro c hc
    have hmem : Op.write c ∈ (flashGo wr data 0 (List.range n)).1 := by
      simpa [flash] using hc
    rcases flashGo_writes_mem wr data (List.range n) 0 (Op.write c) hmem with
      h | ⟨i, _, c', hc', he⟩
    · exact Op.noConfusion h
    · have hcc : c = c' := by injection he
      subst hcc
      exact bankChunks_slice data i c hc'


/-- C3 witness: one full zero bank with a transport accepting every write. -/
theorem flash_sync_trace_witness :
    flash (fun _ => 32) (List.replicate 0x2000 0) 1 =
      (((List.range 1).map fun i =>
        ((bankChunks (((List.replicate 0x2000 (0 : Nat)).drop (i * 0x2000)).take 0x2000)).map
          fun c => [Op.write c, Op.read]).flatten ++ [Op.read]).flatten, true) :=
  flash_sync_trace (fun _ => 32) (List.replicate 0x2000 0) 1
    (by rw [List.length_replicate]) (fun k _ => Nat.le_refl 32)


/-- C4 witness: a transport accepting only 5 bytes on write call 3 aborts the
flash after exactly 4 writes. -/
theorem flash_short_write_aborts_witness :
    (flash (fun k => if k = 3 then 5 else 32) (List.replicate 0x2000 0) 1).2 = false ∧
    numWrites (flash (fun k => if k = 3 then 5 else 32) (List.replicate 0x2000 0) 1).1 = 4 :=
  flash_short_write_aborts (fun k => if k = 3 then 5 else 32) (List.replicate 0x2000 0) 1 3
    (by rw [List.length_replicate]) (by decide) (by decide) (by decide)


/-- C5 amended witness: a 16-byte payload flashed as one bank. -/
theorem flash_short_data_aborts_witness :
    (flash (fun _ => 32) (List.replicate 16 7) 1).2 = false ∧
    ∀ c, Op.write c ∈ (flash (fun _ => 32) (List.replicate 16 7) 1).1 →
      ∃ off, c = ((List.replicate 16 7).drop off).take 32 :=
  flash_short_data_aborts (fun _ => 32) (List.replicate 16 7) 1 (by decide) (by decide)
